import Mathlib

/-!
Verification of the ScrambleOpt route-optimization core against its
natural-language specification.

The development shallowly embeds the Python sources:
  * `src/path.py`            — the `xyzPath` data structure and its mutators
  * `src/cost_functions.py`  — the `re3`, `acsm_equation` cost models
  * `src/resegmenter.py`     — `resegment` (largest-remainder densification)
  * `src/perturbers/singlePointMover.py` — the `SinglePointMover` strategy
  * `src/dist/ScrambleOpt/_internal/solvers/simulatedAnneal.py` — `optimize`

Coordinates and costs are embedded as exact numbers (`ℚ` for stored
coordinates, `ℝ` for derived geometry such as Euclidean segment length);
Python float rounding is idealized away.  Random draws made by the code
(`random.randint`, `random.uniform`) are modelled as oracle inputs, and a
cancellation event's successive `is_set()` polls as a Boolean stream.
Fallible operations return an explicit error value together with the state
at the moment of the raise, so that atomicity is a provable property and
not an artifact of the embedding.
-/

/-- A stored path point, `[x, y, z]` in `path.py`. -/
structure Pt where
  x : ℚ
  y : ℚ
  z : ℚ
deriving DecidableEq, Repr

instance : Inhabited Pt := ⟨⟨0, 0, 0⟩⟩

/-- The elevation source consumed by the core: integer raster coordinates to
an optional elevation (`None` = out of bounds), as used via
`dem.get_elevation(int(x), int(y))`. -/
def Dem : Type := ℤ → ℤ → Option ℚ

/-- Error kinds raised by the core, following the spec taxonomy (§7): the
code realizes `range` and `lockedEndpoint` as `IndexError` raises with
distinct messages and conditions, `sample` as the `ValueError` raises for a
missing DEM or a failed elevation lookup, and `zeroDiv` as Python's
`ZeroDivisionError`. -/
inductive Err where
  | range
  | lockedEndpoint
  | sample
  | zeroDiv
deriving DecidableEq, Repr

/-- `xyzPath` from `path.py`: an ordered list of points, a `locked` flag and
an optional elevation source. -/
structure xyzPath where
  dem : Option Dem
  points : List Pt
  locked : Bool

/-- Python `int(...)` truncation toward zero applied to a rational. -/
def pyInt (q : ℚ) : ℤ := if 0 ≤ q then ⌊q⌋ else ⌈q⌉

/-- `xyzPath.add_point`: appends a point; when `z` is absent it is sampled
from the DEM at the truncated coordinates, raising (`ValueError`) if no DEM
is set or the lookup returns `None`.  The pair returned is
(raised error, path state when control leaves the method). -/
def add_point (p : xyzPath) (x y : ℚ) (zOpt : Option ℚ) : Option Err × xyzPath :=
  match zOpt with
  | some z => (none, { p with points := p.points ++ [⟨x, y, z⟩] })
  | none =>
    match p.dem with
    | none => (some .sample, p)
    | some dem =>
      match dem (pyInt x) (pyInt y) with
      | none => (some .sample, p)
      | some z => (none, { p with points := p.points ++ [⟨x, y, z⟩] })

/-- `xyzPath.delete_point`: bounds check first (`IndexError` out of range),
then the locking check on the endpoints (`IndexError`, distinct message),
then `points.pop(index)`. -/
def delete_point (p : xyzPath) (index : ℤ) : Option Err × xyzPath :=
  if index < 0 ∨ (p.points.length : ℤ) ≤ index then (some .range, p)
  else if p.locked = true ∧ (index = 0 ∨ index = (p.points.length : ℤ) - 1) then
    (some .lockedEndpoint, p)
  else (none, { p with points := p.points.eraseIdx index.toNat })

/-- Displace one list entry by `(dx, dy)` keeping `z`, used by
`shift_point`'s non-resampling branch. -/
def shiftXY (pt : Pt) (dx dy : ℚ) : Pt := ⟨pt.x + dx, pt.y + dy, pt.z⟩

/-- `xyzPath.shift_point`: bounds check, locking check, then the point is
moved by `(dx, dy)`; when `update_z` is set the new elevation is sampled
from the DEM (raising `ValueError` when no DEM is set or the lookup fails),
otherwise `z` is kept. -/
def shift_point (p : xyzPath) (index : ℤ) (dx dy : ℚ) (update_z : Bool) :
    Option Err × xyzPath :=
  if index < 0 ∨ (p.points.length : ℤ) ≤ index then (some .range, p)
  else if p.locked = true ∧ (index = 0 ∨ index = (p.points.length : ℤ) - 1) then
    (some .lockedEndpoint, p)
  else
    let i := index.toNat
    let pt := p.points.getD i default
    let nx := pt.x + dx
    let ny := pt.y + dy
    if update_z then
      match p.dem with
      | none => (some .sample, p)
      | some dem =>
        match dem (pyInt nx) (pyInt ny) with
        | none => (some .sample, p)
        | some z => (none, { p with points := p.points.set i ⟨nx, ny, z⟩ })
    else (none, { p with points := p.points.set i ⟨nx, ny, pt.z⟩ })

/-- `xyzPath.update_z_values` applied pointwise: a point keeps its `z` when
the DEM lookup returns `None`. -/
def demResample (dem : Dem) (pt : Pt) : Pt :=
  match dem (pyInt pt.x) (pyInt pt.y) with
  | some z => ⟨pt.x, pt.y, z⟩
  | none => pt

/-- The idiom `if new_path.dem: new_path.update_z_values()` used by the
perturber when building candidates: resample every `z` when a DEM is
present, otherwise leave the points alone. -/
def demUpdate (demOpt : Option Dem) (pts : List Pt) : List Pt :=
  match demOpt with
  | none => pts
  | some dem => pts.map (demResample dem)

/-- `xyzPath.get_segments` delta triples `(dx, dy, dz)` for consecutive
point pairs (the distance column is derived separately). -/
def segDeltas (pts : List Pt) : List (ℚ × ℚ × ℚ) :=
  (pts.zip pts.tail).map fun ab => (ab.2.x - ab.1.x, ab.2.y - ab.1.y, ab.2.z - ab.1.z)

/-- Euclidean norm of a segment delta, the `np.linalg.norm` distance column
of `get_segments`. -/
noncomputable def dist3 (d : ℚ × ℚ × ℚ) : ℝ :=
  Real.sqrt ((d.1 : ℝ) ^ 2 + (d.2.1 : ℝ) ^ 2 + (d.2.2 : ℝ) ^ 2)

/-- Per-segment 3-D distances of a point list. -/
noncomputable def segDists (pts : List Pt) : List ℝ := (segDeltas pts).map dist3

/-- `xyzPath.get_total_distance`: sum of the segment distances (0 for fewer
than two points). -/
noncomputable def get_total_distance (p : xyzPath) : ℝ := (segDists p.points).sum

/-- `re3` from `cost_functions.py` (RE3 running equation).  Returns `0` only
when `segCount = pointCount - 1 ≤ 0`; otherwise evaluates the four-term
formula with `segTime = time·3600/segCount` (an epsilon `1e-9` substituted
when that quotient is zero). -/
noncomputable def re3 (p : xyzPath) (time : ℝ) : ℝ :=
  let segCount : ℤ := (p.points.length : ℤ) - 1
  if segCount ≤ 0 then 0
  else
    let segTime0 : ℝ := time * 3600 / (segCount : ℝ)
    let segTime : ℝ := if segTime0 = 0 then 1e-9 else segTime0
    let ds := segDists p.points
    let rs := (segDeltas p.points).map fun d => (d.2.2 : ℝ)
    4.43 * time + 1.39 * ds.sum
      + 0.185 * (ds.map fun d => d ^ 2 / segTime).sum
      + 30.43 * ((rs.zip ds).map fun rd =>
          rd.1 * (1 - (1.133 : ℝ) ^ (1 - (1.056 : ℝ) ^ (rd.1 / rd.2 + 0.43)))).sum

/-- `acsm_equation` from `cost_functions.py` (ACSM walking equation).  The
assignment `segTime = time * 3600 / segCount` is executed before anything
else and raises `ZeroDivisionError` when `segCount = 0` (a one-point path);
`segTime` itself is never used afterwards.  Otherwise the cost is
`0.1·Σdist + 1.8·Σdz + time·0.0583`. -/
noncomputable def acsm_equation (p : xyzPath) (time : ℝ) : Except Err ℝ :=
  let segCount : ℤ := (p.points.length : ℤ) - 1
  if segCount = 0 then .error .zeroDiv
  else
    .ok (0.1 * (segDists p.points).sum
      + 1.8 * ((segDeltas p.points).map fun d => (d.2.2 : ℝ)).sum
      + time * 0.0583)

/-- `np.round` rounding: to the nearest integer, ties to the even integer
(IEEE round-half-even, numpy's documented behavior). -/
noncomputable def npRound (q : ℝ) : ℤ :=
  let f := ⌊q⌋
  let r := q - (f : ℝ)
  if r < 1 / 2 then f
  else if 1 / 2 < r then f + 1
  else if f % 2 = 0 then f else f + 1

/-- Insert an index into a list of indices kept in descending order of the
key `fr`, used to model `np.argsort(fractional_parts)` read from the top. -/
noncomputable def insDesc (fr : ℕ → ℝ) (i : ℕ) : List ℕ → List ℕ
  | [] => [i]
  | j :: t => if fr j ≤ fr i then i :: j :: t else j :: insDesc fr i t

/-- Indices sorted by descending key, a deterministic rendering of
`np.argsort(fractional_parts)[-remainder:]` (the tie order among equal
fractional parts is unspecified in the source and irrelevant here). -/
noncomputable def sortDesc (fr : ℕ → ℝ) : List ℕ → List ℕ
  | [] => []
  | i :: t => insDesc fr i (sortDesc fr t)

/-- Linear interpolation `p1 + t·(p2 − p1)` from `resegment`'s inner loop. -/
def lerp (a b : Pt) (t : ℚ) : Pt :=
  ⟨a.x + t * (b.x - a.x), a.y + t * (b.y - a.y), a.z + t * (b.z - a.z)⟩

/-- The `num_new_points` interpolated points inserted inside one segment, at
parameters `t = i/(num_new_points+1)` for `i = 1..num_new_points`. -/
def interpPts (a b : Pt) (k : ℕ) : List Pt :=
  (List.range k).map fun j : ℕ => lerp a b (((j : ℚ) + 1) / ((k : ℚ) + 1))

/-- The point-building loop of `resegment`: for each segment append its
start point followed by that segment's interpolated points, then append the
final original point. -/
def buildPoints : List Pt → List ℕ → List Pt
  | [], _ => []
  | [a], _ => [a]
  | a :: b :: rest, [] => a :: buildPoints (b :: rest) []
  | a :: b :: rest, k :: ks => (a :: interpPts a b k) ++ buildPoints (b :: rest) ks

/-- The apportionment arithmetic of `resegment`: proportional shares
`(length_i/total)·pointsToAdd`, `np.round` to integers, and — only when the
leftover `remainder` is positive — one extra point for each of the
`remainder` segments with the largest fractional parts.  A negative
remainder (over-allocation by rounding) is left uncorrected, exactly as in
the source. -/
noncomputable def resegmentAdds (p : xyzPath) (target : ℕ) : List ℕ :=
  let dists := segDists p.points
  let toAdd := target - p.points.length
  let total := dists.sum
  let shares := dists.map fun L => L / total * (toAdd : ℝ)
  let rounded := shares.map npRound
  let remainder : ℤ := (toAdd : ℤ) - rounded.sum
  let fracs := shares.map fun s => s - (⌊s⌋ : ℝ)
  let tops :=
    if 0 < remainder then
      (sortDesc (fun i => fracs.getD i 0) (List.range dists.length)).take remainder.toNat
    else []
  (List.range dists.length).map fun i =>
    (rounded.getD i 0).toNat + if i ∈ tops then 1 else 0

/-- `resegment(path, target_point_count)` from `resegmenter.py`: `None` when
the target does not exceed the current count or when the path has no
segments; otherwise a fresh path (same DEM, same `locked` flag) whose
points are produced by `buildPoints` under the computed apportionment. -/
noncomputable def resegment (p : xyzPath) (target : ℕ) : Option xyzPath :=
  if target ≤ p.points.length then none
  else if (segDists p.points).length = 0 then none
  else some { dem := p.dem, points := buildPoints p.points (resegmentAdds p target),
              locked := p.locked }

/-- A propagation plan, the dict
`{'center', 'dx', 'dy', 'neighbor_frac', 'steps_remaining'}` owned by a
`SinglePointMover`. -/
structure Propagation where
  center : ℕ
  dx : ℚ
  dy : ℚ
  neighbor_frac : ℚ
  steps_remaining : ℕ
deriving DecidableEq, Repr

/-- The `SinglePointMover` strategy state from `singlePointMover.py`:
constructor parameters plus the mutable `_propagation` and `_last_move`
fields. -/
structure SinglePointMover where
  spacing : ℚ
  samples : ℕ
  max_climb_steps : ℕ
  propagation : Option Propagation
  last_move : Option (ℕ × ℚ × ℚ)
deriving DecidableEq, Repr

/-- Result of one `perturb` call: the candidate path, the strategy state on
exit, and instrumentation counting how many times the cost function was
invoked and how many random offsets were drawn during the call. -/
structure PerturbResult where
  path : xyzPath
  mover : SinglePointMover
  costEvals : ℕ
  offsetDraws : ℕ

/-- The candidate list built in `perturb`'s propagation branch: the plan's
center point displaced by `(dx, dy)`, its immediate neighbors by
`neighbor_frac · (dx, dy)` and every other point kept (indexing from `i`). -/
def propagateFrom (c : ℕ) (dx dy fr : ℚ) : ℕ → List Pt → List Pt
  | _, [] => []
  | i, pt :: rest =>
    (if i = c then ⟨pt.x + dx, pt.y + dy, pt.z⟩
     else if i = c - 1 ∨ i = c + 1 then ⟨pt.x + dx * fr, pt.y + dy * fr, pt.z⟩
     else pt) :: propagateFrom c dx dy fr (i + 1) rest

/-- Propagated candidate points, starting the index count at 0. -/
def propagate (pts : List Pt) (c : ℕ) (dx dy fr : ℚ) : List Pt :=
  propagateFrom c dx dy fr 0 pts

/-- The point list built by `_make_candidate`: one index displaced by
`(dx, dy)` with `z` kept, every other point copied (indexing from `i`). -/
def shiftAtFrom (idx : ℕ) (dx dy : ℚ) : ℕ → List Pt → List Pt
  | _, [] => []
  | i, pt :: rest =>
    (if i = idx then ⟨pt.x + dx, pt.y + dy, pt.z⟩ else pt) :: shiftAtFrom idx dx dy (i + 1) rest

/-- `SinglePointMover._make_candidate`: build a fresh path (default
`locked = False`) with one point displaced, resampling every `z` when a DEM
is present. -/
def make_candidate (dem : Option Dem) (pts : List Pt) (idx : ℕ) (dx dy : ℚ) : xyzPath :=
  ⟨dem, demUpdate dem (shiftAtFrom idx dx dy 0 pts), false⟩

/-- Mutable state threaded through `perturb`'s sampling loops: the best
candidate so far (`bestIsOrig` tracks the `best_path is path` identity
test), its cost (`⊤` models `float('inf')`), the recorded tentative move
and the instrumentation counters (`polls` indexes the cancellation
stream). -/
structure SampState where
  bestPath : xyzPath
  bestIsOrig : Bool
  bestCost : WithTop ℝ
  lastMove : Option (ℕ × ℚ × ℚ)
  costEvals : ℕ
  draws : ℕ
  polls : ℕ

/-- Cost evaluation step shared by both sampling loops: when a cost
function is configured, poll the cancellation signal (early-return on the
left) and evaluate the candidate; otherwise the candidate scores `0.0`. -/
noncomputable def evalCand (cf : Option (xyzPath → ℝ)) (stop : ℕ → Bool)
    (cand : xyzPath) (st : SampState) : SampState ⊕ (WithTop ℝ × SampState) :=
  match cf with
  | some f =>
    if stop st.polls then .inl { st with polls := st.polls + 1 }
    else .inr (((f cand : ℝ) : WithTop ℝ),
      { st with polls := st.polls + 1, costEvals := st.costEvals + 1 })
  | none => .inr (((0 : ℝ) : WithTop ℝ), st)

/-- The coarse sampling loop of `perturb` (`for s in range(self.samples)`),
with the two cancellation polls per round and the oracle supplying each
drawn offset.  `inl` is the early `return best_path`. -/
noncomputable def sampLoop (cf : Option (xyzPath → ℝ)) (stop : ℕ → Bool)
    (offs : ℕ → ℚ × ℚ) (dem : Option Dem) (pts0 : List Pt) (idx : ℕ) :
    ℕ → SampState → SampState ⊕ SampState
  | 0, st => .inr st
  | n + 1, st =>
    if stop st.polls then .inl { st with polls := st.polls + 1 }
    else
      let st1 := { st with polls := st.polls + 1 }
      let d := offs st1.draws
      let st2 := { st1 with draws := st1.draws + 1 }
      let cand := make_candidate dem pts0 idx d.1 d.2
      match evalCand cf stop cand st2 with
      | .inl est => .inl est
      | .inr (c, st3) =>
        let st4 :=
          if c < st3.bestCost then
            { st3 with bestPath := cand, bestIsOrig := false, bestCost := c,
                       lastMove := some (idx,
                         (cand.points.getD idx default).x - (pts0.getD idx default).x,
                         (cand.points.getD idx default).y - (pts0.getD idx default).y) }
          else st3
        sampLoop cf stop offs dem pts0 idx n st4

/-- One hill-climb round of `perturb` (the inner
`for _ in range(max(8, self.samples // 2))` loop): candidates are built
from the current best path, and `improved` records whether the round found
a strictly better candidate. -/
noncomputable def climbInner (cf : Option (xyzPath → ℝ)) (stop : ℕ → Bool)
    (offs : ℕ → ℚ × ℚ) (dem : Option Dem) (pts0 : List Pt) (idx : ℕ) :
    ℕ → SampState → Bool → SampState ⊕ (SampState × Bool)
  | 0, st, improved => .inr (st, improved)
  | n + 1, st, improved =>
    if stop st.polls then .inl { st with polls := st.polls + 1 }
    else
      let st1 := { st with polls := st.polls + 1 }
      let d := offs st1.draws
      let st2 := { st1 with draws := st1.draws + 1 }
      let cand := make_candidate dem st2.bestPath.points idx d.1 d.2
      match evalCand cf stop cand st2 with
      | .inl est => .inl est
      | .inr (c, st3) =>
        if c < st3.bestCost then
          climbInner cf stop offs dem pts0 idx n
            { st3 with bestPath := cand, bestIsOrig := false, bestCost := c,
                       lastMove := some (idx,
                         (cand.points.getD idx default).x - (pts0.getD idx default).x,
                         (cand.points.getD idx default).y - (pts0.getD idx default).y) }
            true
        else climbInner cf stop offs dem pts0 idx n st3 improved

/-- The outer hill-climb loop (`while climb_steps < self.max_climb_steps`),
stopping early after a round with no improvement. -/
noncomputable def climbLoop (cf : Option (xyzPath → ℝ)) (stop : ℕ → Bool)
    (offs : ℕ → ℚ × ℚ) (dem : Option Dem) (pts0 : List Pt) (idx : ℕ)
    (innerCount : ℕ) : ℕ → SampState → SampState ⊕ SampState
  | 0, st => .inr st
  | r + 1, st =>
    match climbInner cf stop offs dem pts0 idx innerCount st false with
    | .inl est => .inl est
    | .inr (st1, improved) =>
      if improved then climbLoop cf stop offs dem pts0 idx innerCount r st1
      else .inr st1

/-- `SinglePointMover.perturb`.  Paths with fewer than 3 points are returned
unchanged at once.  Otherwise the source draws a random interior index
(oracle `idx`), computes the movement radius, and evaluates the baseline
cost of the input path *before* checking for an active propagation plan;
with an active plan (steps remaining > 0) it returns the propagated
candidate immediately, and otherwise runs the coarse sampling and
hill-climb loops, finally clearing `_last_move` when the best path is still
the input object.  Each random offset draw is supplied by the oracle
`offs`. -/
noncomputable def perturb (m : SinglePointMover) (path : xyzPath)
    (cf : Option (xyzPath → ℝ)) (stop : ℕ → Bool) (idx : ℕ) (offs : ℕ → ℚ × ℚ) :
    PerturbResult :=
  if path.points.length < 3 then ⟨path, m, 0, 0⟩
  else
    let baselineEvals : ℕ := match cf with | some _ => 1 | none => 0
    let baseline : WithTop ℝ :=
      match cf with | some f => ((f path : ℝ) : WithTop ℝ) | none => ⊤
    let activePlan : Option Propagation :=
      match m.propagation with
      | some pl => if 0 < pl.steps_remaining then some pl else none
      | none => none
    match activePlan with
    | some pl =>
      let npts := propagate path.points pl.center pl.dx pl.dy pl.neighbor_frac
      let newPath : xyzPath := ⟨path.dem, demUpdate path.dem npts, false⟩
      ⟨newPath, { m with last_move := some (pl.center, pl.dx, pl.dy) }, baselineEvals, 0⟩
    | none =>
      let st0 : SampState := ⟨path, true, baseline, m.last_move, baselineEvals, 0, 0⟩
      match sampLoop cf stop offs path.dem path.points idx m.samples st0 with
      | .inl est => ⟨est.bestPath, { m with last_move := est.lastMove }, est.costEvals, est.draws⟩
      | .inr st1 =>
        match climbLoop cf stop offs path.dem path.points idx
            (max 8 (m.samples / 2)) m.max_climb_steps st1 with
        | .inl est => ⟨est.bestPath, { m with last_move := est.lastMove }, est.costEvals, est.draws⟩
        | .inr st2 =>
          let finalMove := if st2.bestIsOrig then none else st2.lastMove
          ⟨st2.bestPath, { m with last_move := finalMove }, st2.costEvals, st2.draws⟩

/-- `SinglePointMover.on_move_accepted`: no-op without a recorded move; with
a plan already active for the same center, refresh `(dx, dy)` and decrement
`steps_remaining` (`max(0, ·−1)`), clearing the plan when it reaches zero;
otherwise start a fresh plan `(center, dx, dy, 0.5, 3)`. -/
def on_move_accepted (m : SinglePointMover) (_old _new : xyzPath) : SinglePointMover :=
  match m.last_move with
  | none => m
  | some (idx, dx, dy) =>
    match m.propagation with
    | some pl =>
      if pl.center = idx then
        let steps := pl.steps_remaining - 1
        if steps = 0 then { m with propagation := none }
        else { m with propagation := some ⟨pl.center, dx, dy, pl.neighbor_frac, steps⟩ }
      else { m with propagation := some ⟨idx, dx, dy, 1 / 2, 3⟩ }
    | none => { m with propagation := some ⟨idx, dx, dy, 1 / 2, 3⟩ }

/-- Oracle inputs consumed by one iteration of the `optimize` loop: the two
`stop_event.is_set()` polls made by the loop itself, the poll stream and the
random draws handed to the perturber. -/
structure IterOracle where
  stopTop : Bool
  stopMid : Bool
  pstop : ℕ → Bool
  idx : ℕ
  offs : ℕ → ℚ × ℚ

/-- Loop state of `optimize`: current path/cost, best path/cost, the (single)
perturber object's state, and the iteration counter. -/
structure OptState where
  current : xyzPath
  currentCost : ℝ
  best : xyzPath
  bestCost : ℝ
  mover : SinglePointMover
  iter : ℕ

/-- Observable outcome of one loop iteration: the successor state, which of
the accept/reject branches ran (the source logs exactly this), and whether
the mid-iteration cancellation check broke out of the loop. -/
structure IterOut where
  state : OptState
  accepted : Bool
  exited : Bool

/-- The candidate re-densification step inside `optimize`: when the
candidate has positive total length, require at least
`max(target, ceil(total/ (0.05·total maxed with 1e-12)) + 1)` points and
resegment up to that count (keeping the candidate when `resegment`
declines). -/
noncomputable def resegGuard (target : ℕ) (p : xyzPath) : xyzPath :=
  let total := get_total_distance p
  if 0 < total then
    let desiredSegLen := total * 0.05
    let desiredSegments : ℤ := ⌈total / max desiredSegLen 1e-12⌉
    let desiredPoints : ℤ := max (target : ℤ) (desiredSegments + 1)
    if (p.points.length : ℤ) < desiredPoints then
      match resegment p desiredPoints.toNat with
      | some q => q
      | none => p
    else p
  else p

/-- One iteration of the `optimize` loop body (after the top-of-loop
cancellation check): perturb the current path, re-densify the candidate,
poll cancellation, evaluate the candidate's cost and accept exactly when
`delta = new_cost − current_cost ≤ 1`; on acceptance adopt the candidate,
notify the strategy via `on_move_accepted` and update the best record on a
strict improvement; on rejection clear the strategy's propagation plan.
The repository configures a single perturbation strategy
(`SinglePointMover(spacing=10.0)`), so `random.choice` over the perturber
list is the identity. -/
noncomputable def optIter (cf : xyzPath → ℝ) (target : ℕ) (o : IterOracle)
    (s : OptState) : IterOut :=
  let pr := perturb s.mover s.current (some cf) o.pstop o.idx o.offs
  let cand := resegGuard target pr.path
  if o.stopMid then ⟨{ s with mover := pr.mover }, false, true⟩
  else
    let newCost := cf cand
    let delta := newCost - s.currentCost
    if delta ≤ 1 then
      let mover1 := on_move_accepted pr.mover s.current cand
      if newCost < s.bestCost then
        ⟨⟨cand, newCost, cand, newCost, mover1, s.iter + 1⟩, true, false⟩
      else
        ⟨⟨cand, newCost, s.best, s.bestCost, mover1, s.iter + 1⟩, true, false⟩
    else
      ⟨⟨s.current, s.currentCost, s.best, s.bestCost,
        { pr.mover with propagation := none }, s.iter + 1⟩, false, false⟩

/-- The `while True` loop of `optimize`: check cancellation at the top, run
the body, and stop after the fixed 1000-iteration budget (the progress
callback every 10 iterations has no effect on the loop state). -/
noncomputable def optLoop (cf : xyzPath → ℝ) (target : ℕ)
    (oracle : ℕ → IterOracle) : ℕ → OptState → OptState
  | 0, s => s
  | fuel + 1, s =>
    let o := oracle s.iter
    if o.stopTop then s
    else
      let out := optIter cf target o s
      if out.exited then out.state
      else if 1000 ≤ out.state.iter then out.state
      else optLoop cf target oracle fuel out.state

/-- The perturber instantiated by `optimize`:
`SinglePointMover(spacing=10.0)` with default `samples=16`,
`max_climb_steps=6` and empty propagation state. -/
def mover0 : SinglePointMover := ⟨10, 16, 6, none, none⟩

/-- `optimize(path, cost_function, perturbers, ...)` from
`simulatedAnneal.py`, for the repository's perturber set: start from a copy
of the input path, remember its point count as the resegmentation target,
and iterate the loop body up to the 1000-iteration cap (fuel 2000 strictly
dominates the cap, which is reached first).  Returns `(best_path,
best_cost)`. -/
noncomputable def optimize (path : xyzPath) (cf : xyzPath → ℝ)
    (oracle : ℕ → IterOracle) : xyzPath × ℝ :=
  let c0 := cf path
  let s := optLoop cf path.points.length oracle 2000 ⟨path, c0, path, c0, mover0, 0⟩
  (s.best, s.bestCost)

/-- A one-point path with no DEM (a degenerate geometry input). -/
def onePointPath : xyzPath := ⟨none, [⟨0, 0, 0⟩], false⟩

/-- A two-point path (exactly one segment of length 10). -/
def twoPointPath : xyzPath := ⟨none, [⟨0, 0, 0⟩, ⟨10, 0, 0⟩], false⟩

/-- A locked two-point path with no DEM. -/
def lockedPair : xyzPath := ⟨none, [⟨0, 0, 0⟩, ⟨1, 1, 1⟩], true⟩

/-- Norm of an axis-aligned delta. -/
theorem dist3_axis (a : ℚ) (h : 0 ≤ a) : dist3 (a, 0, 0) = (a : ℝ) := by
  have h1 : dist3 (a, 0, 0) = Real.sqrt ((a : ℝ) ^ 2) := by
    unfold dist3; norm_num
  rw [h1, Real.sqrt_sq (by exact_mod_cast h)]

/-- C9: on a locked path with at least two points, `delete_point` and
`shift_point` on index 0 or on the last index always fail with the
locked-endpoint error, and an index outside the current bounds fails with
the (distinct) range error instead. -/
theorem C9_locked_endpoint_errors (p : xyzPath) (h1 : p.locked = true)
    (h2 : 2 ≤ p.points.length) :
    (delete_point p 0).1 = some Err.lockedEndpoint
    ∧ (delete_point p ((p.points.length : ℤ) - 1)).1 = some Err.lockedEndpoint
    ∧ (∀ dx dy uz, (shift_point p 0 dx dy uz).1 = some Err.lockedEndpoint)
    ∧ (∀ dx dy uz,
        (shift_point p ((p.points.length : ℤ) - 1) dx dy uz).1 = some Err.lockedEndpoint)
    ∧ (∀ i : ℤ, (i < 0 ∨ (p.points.length : ℤ) ≤ i) →
        (delete_point p i).1 = some Err.range
        ∧ ∀ dx dy uz, (shift_point p i dx dy uz).1 = some Err.range)
    ∧ Err.lockedEndpoint ≠ Err.range := by
  have hlen : (2 : ℤ) ≤ (p.points.length : ℤ) := by exact_mod_cast h2
  refine ⟨?_, ?_, ?_, ?_, ?_, by decide⟩
  · unfold delete_point
    rw [if_neg (by omega), if_pos ⟨h1, Or.inl rfl⟩]
  · unfold delete_point
    rw [if_neg (by omega), if_pos ⟨h1, Or.inr rfl⟩]
  · intro dx dy uz
    unfold shift_point
    rw [if_neg (by omega), if_pos ⟨h1, Or.inl rfl⟩]
  · intro dx dy uz
    unfold shift_point
    rw [if_neg (by omega), if_pos ⟨h1, Or.inr rfl⟩]
  · intro i hi
    constructor
    · unfold delete_point
      rw [if_pos hi]
    · intro dx dy uz
      unfold shift_point
      rw [if_pos hi]

/-- C9 witness at a concrete locked two-point path. -/
theorem C9_locked_endpoint_errors_witness :
    (delete_point lockedPair 0).1 = some Err.lockedEndpoint
    ∧ (shift_point lockedPair 1 3 4 false).1 = some Err.lockedEndpoint
    ∧ (delete_point lockedPair 2).1 = some Err.range := by
  have h := C9_locked_endpoint_errors lockedPair rfl (by decide)
  refine ⟨h.1, ?_, ?_⟩
  · have := h.2.2.2.1 3 4 false
    simpa using this
  · have := (h.2.2.2.2.1 2 (by decide)).1
    simpa using this

/-- C10: whenever `add_point`, `delete_point` or `shift_point` raises, the
path (its point list, `locked` flag and DEM reference) is exactly as it was
before the call: every raise precedes the first mutation. -/
theorem C10_mutations_atomic (p : xyzPath) :
    (∀ x y zOpt, (add_point p x y zOpt).1 ≠ none → (add_point p x y zOpt).2 = p)
    ∧ (∀ i, (delete_point p i).1 ≠ none → (delete_point p i).2 = p)
    ∧ (∀ i dx dy uz, (shift_point p i dx dy uz).1 ≠ none →
        (shift_point p i dx dy uz).2 = p) := by
  refine ⟨?_, ?_, ?_⟩
  · intro x y zOpt h
    cases zOpt with
    | some z => simp [add_point] at h
    | none =>
      cases hd : p.dem with
      | none => simp [add_point, hd]
      | some dem =>
        cases he : dem (pyInt x) (pyInt y) with
        | none => simp [add_point, hd, he]
        | some z => simp [add_point, hd, he] at h
  · intro i h
    unfold delete_point at h ⊢
    split_ifs at h ⊢ <;> simp_all
  · intro i dx dy uz
    cases hd : p.dem with
    | none =>
      intro h
      simp only [shift_point, hd] at h ⊢
      split_ifs at h ⊢ <;> first | rfl | exact absurd rfl h
    | some dem =>
      cases he : dem (pyInt ((p.points.getD i.toNat default).x + dx))
          (pyInt ((p.points.getD i.toNat default).y + dy)) with
      | none =>
        intro h
        simp only [shift_point, hd, he] at h ⊢
        split_ifs at h ⊢ <;> first | rfl | exact absurd rfl h
      | some z =>
        intro h
        simp only [shift_point, hd, he] at h ⊢
        split_ifs at h ⊢ <;> first | rfl | exact absurd rfl h

/-- C10 witness: concrete raising calls (missing DEM, locked endpoint,
out-of-range index) leave the path untouched. -/
theorem C10_mutations_atomic_witness :
    (add_point lockedPair 0 0 none).2 = lockedPair
    ∧ (delete_point lockedPair 0).2 = lockedPair
    ∧ (shift_point lockedPair 5 1 1 false).2 = lockedPair :=
  ⟨(C10_mutations_atomic lockedPair).1 0 0 none (by decide),
   (C10_mutations_atomic lockedPair).2.1 0 (by decide),
   (C10_mutations_atomic lockedPair).2.2 5 1 1 false (by decide)⟩

/-- C6: `acsm_equation` is not guarded against division by zero — on a path
with a single point (`segCount = 0`) the computation of the (unused)
`segTime` raises `ZeroDivisionError` instead of returning the cost
formula. -/
theorem C6_acsm_zero_division :
    acsm_equation onePointPath 1 = Except.error Err.zeroDiv := by
  simp [acsm_equation, onePointPath]

/-- C5 counterexample: a two-point path has exactly one segment, yet `re3`
does not return 0 there — the guard only covers `segCount ≤ 0`, so the
full formula is evaluated and is strictly positive. -/
theorem C5_counterexample :
    twoPointPath.points.length = 2 ∧ re3 twoPointPath 1 ≠ 0 := by
  refine ⟨rfl, ?_⟩
  have h10 : dist3 ((10 : ℚ), 0, 0) = (10 : ℝ) := dist3_axis 10 (by norm_num)
  have hsd : segDeltas twoPointPath.points = [((10 : ℚ), 0, 0)] := by
    simp [segDeltas, twoPointPath]
  have hds : segDists twoPointPath.points = [(10 : ℝ)] := by
    rw [segDists, hsd, List.map_cons, List.map_nil, h10]
  have hlen : twoPointPath.points.length = 2 := rfl
  unfold re3
  rw [hlen, hsd, hds]
  norm_num

/-- C5 amended: `re3` degenerates to 0 exactly when the path has no
segments — at most one point (`segCount = pointCount − 1 ≤ 0`); a one-segment
(two-point) path evaluates the full formula. -/
theorem C5_re3_zero_on_no_segments (p : xyzPath) (t : ℝ)
    (h : p.points.length ≤ 1) : re3 p t = 0 := by
  unfold re3
  rw [if_pos (show (p.points.length : ℤ) - 1 ≤ 0 by omega)]

/-- C5 witness: the amended statement at a concrete one-point path. -/
theorem C5_re3_zero_on_no_segments_witness :
    onePointPath.points.length ≤ 1 ∧ re3 onePointPath 5 = 0 :=
  ⟨by decide, C5_re3_zero_on_no_segments onePointPath 5 (by decide)⟩

/-- C8: propagation-seeding on an accepted move.  With a recorded move of
point `i` by `(dx, dy)`: an active plan for the same center gets the new
displacement and a decremented counter, the plan being dropped when the
counter reaches zero; in every other situation (no plan, or a plan for a
different center) a fresh plan `(i, dx, dy, 0.5, 3)` is installed. -/
theorem C8_on_move_accepted_plan (m : SinglePointMover) (pOld pNew : xyzPath)
    (i : ℕ) (dx dy : ℚ) (h : m.last_move = some (i, dx, dy)) :
    (∀ pl, m.propagation = some pl → pl.center = i →
      (2 ≤ pl.steps_remaining →
        (on_move_accepted m pOld pNew).propagation
          = some ⟨i, dx, dy, pl.neighbor_frac, pl.steps_remaining - 1⟩)
      ∧ (pl.steps_remaining ≤ 1 →
        (on_move_accepted m pOld pNew).propagation = none))
    ∧ ((m.propagation = none ∨ ∃ pl, m.propagation = some pl ∧ pl.center ≠ i) →
      (on_move_accepted m pOld pNew).propagation = some ⟨i, dx, dy, 1 / 2, 3⟩) := by
  constructor
  · intro pl hpl hc
    constructor
    · intro hs
      simp only [on_move_accepted, h, hpl]
      rw [if_pos hc, if_neg (show ¬(pl.steps_remaining - 1 = 0) by omega)]
      simp [hc]
    · intro hs
      simp only [on_move_accepted, h, hpl]
      rw [if_pos hc, if_pos (show pl.steps_remaining - 1 = 0 by omega)]
  · intro hcase
    rcases hcase with hn | ⟨pl, hpl, hc⟩
    · simp only [on_move_accepted, h, hn]
    · simp only [on_move_accepted, h, hpl]
      rw [if_neg hc]

/-- C8 witness: decrement of a same-center plan and creation of a fresh
plan, at concrete mover states. -/
theorem C8_on_move_accepted_plan_witness :
    (on_move_accepted ⟨10, 16, 6, some ⟨2, 0, 0, 1 / 2, 3⟩, some (2, 1, -1)⟩
        onePointPath onePointPath).propagation = some ⟨2, 1, -1, 1 / 2, 2⟩
    ∧ (on_move_accepted ⟨10, 16, 6, none, some (2, 1, -1)⟩
        onePointPath onePointPath).propagation = some ⟨2, 1, -1, 1 / 2, 3⟩ := by
  constructor
  · have := ((C8_on_move_accepted_plan ⟨10, 16, 6, some ⟨2, 0, 0, 1 / 2, 3⟩, some (2, 1, -1)⟩
      onePointPath onePointPath 2 1 (-1) rfl).1 ⟨2, 0, 0, 1 / 2, 3⟩ rfl rfl).1 (by norm_num)
    simpa using this
  · exact (C8_on_move_accepted_plan ⟨10, 16, 6, none, some (2, 1, -1)⟩
      onePointPath onePointPath 2 1 (-1) rfl).2 (Or.inl rfl)

/-- The original points are a sublist (same order, same positions) of the
points built by `resegment`'s insertion loop. -/
theorem buildPoints_sublist (pts : List Pt) :
    ∀ adds : List ℕ, List.Sublist pts (buildPoints pts adds) := by
  induction pts with
  | nil => intro adds; simp [buildPoints]
  | cons a rest ih =>
    intro adds
    cases rest with
    | nil => simp [buildPoints]
    | cons b rs =>
      cases adds with
      | nil => exact List.Sublist.cons₂ a (ih [])
      | cons k ks =>
        show List.Sublist (a :: b :: rs) ((a :: interpPts a b k) ++ buildPoints (b :: rs) ks)
        rw [List.cons_append]
        exact List.Sublist.cons₂ a
          ((ih ks).trans (List.sublist_append_right (interpPts a b k) _))

/-- The insertion loop preserves the head of the list. -/
theorem buildPoints_head? (pts : List Pt) (adds : List ℕ) :
    (buildPoints pts adds).head? = pts.head? := by
  cases pts with
  | nil => rfl
  | cons a rest =>
    cases rest with
    | nil => rfl
    | cons b rs =>
      cases adds with
      | nil => rfl
      | cons k ks =>
        show ((a :: interpPts a b k) ++ buildPoints (b :: rs) ks).head? = _
        rw [List.cons_append]
        rfl

/-- The insertion loop never empties a nonempty list. -/
theorem buildPoints_ne_nil (pts : List Pt) (adds : List ℕ) (h : pts ≠ []) :
    buildPoints pts adds ≠ [] := by
  intro hbp
  have hh := buildPoints_head? pts adds
  rw [hbp] at hh
  cases pts with
  | nil => exact h rfl
  | cons a rest => simp at hh

/-- The insertion loop preserves the last point of the list. -/
theorem buildPoints_getLast? (pts : List Pt) :
    ∀ adds : List ℕ, (buildPoints pts adds).getLast? = pts.getLast? := by
  induction pts with
  | nil => intro adds; rfl
  | cons a rest ih =>
    intro adds
    cases rest with
    | nil => rfl
    | cons b rs =>
      have hne : buildPoints (b :: rs) ([] : List ℕ) ≠ [] :=
        buildPoints_ne_nil _ _ (by simp)
      cases adds with
      | nil =>
        show (List.getLast? (a :: buildPoints (b :: rs) [])) = _
        rw [show a :: buildPoints (b :: rs) [] = [a] ++ buildPoints (b :: rs) [] from rfl,
          List.getLast?_append_of_ne_nil [a] hne, ih []]
        cases rs with
        | nil => rfl
        | cons c cs => simp [List.getLast?_cons_cons]
      | cons k ks =>
        have hne' : buildPoints (b :: rs) ks ≠ [] := buildPoints_ne_nil _ _ (by simp)
        show ((a :: interpPts a b k) ++ buildPoints (b :: rs) ks).getLast? = _
        rw [List.getLast?_append_of_ne_nil _ hne', ih ks]
        cases rs with
        | nil => rfl
        | cons c cs => simp [List.getLast?_cons_cons]

/-- Membership in the interpolated block of one segment. -/
theorem interpPts_mem {a b : Pt} {k : ℕ} {x : Pt} (h : x ∈ interpPts a b k) :
    ∃ j : ℕ, j < k ∧ x = lerp a b (((j : ℚ) + 1) / ((k : ℚ) + 1)) := by
  unfold interpPts at h
  rcases List.mem_map.1 h with ⟨j, hj, he⟩
  exact ⟨j, List.mem_range.1 hj, he.symm⟩

/-- Every point produced by the insertion loop is an original point or the
even-`t` linear interpolation of two consecutive original points. -/
theorem buildPoints_mem (pts : List Pt) : ∀ (adds : List ℕ) (x : Pt),
    x ∈ buildPoints pts adds →
    x ∈ pts ∨ ∃ a b, (a, b) ∈ pts.zip pts.tail
      ∧ ∃ k j : ℕ, j < k ∧ x = lerp a b (((j : ℚ) + 1) / ((k : ℚ) + 1)) := by
  induction pts with
  | nil => intro adds x hx; simp [buildPoints] at hx
  | cons a rest ih =>
    intro adds x hx
    cases rest with
    | nil =>
      simp [buildPoints] at hx
      exact Or.inl (by simp [hx])
    | cons b rs =>
      cases adds with
      | nil =>
        rcases (List.mem_cons).1 hx with hxa | hx'
        · exact Or.inl (by simp [hxa])
        · rcases ih [] x hx' with hmem | ⟨u, v, huv, hk⟩
          · exact Or.inl (List.mem_cons_of_mem a hmem)
          · exact Or.inr ⟨u, v, by simpa using Or.inr huv, hk⟩
      | cons k ks =>
        have hx2 : x ∈ (a :: interpPts a b k) ++ buildPoints (b :: rs) ks := hx
        rcases List.mem_append.1 hx2 with hL | hR
        · rcases (List.mem_cons).1 hL with hxa | hint
          · exact Or.inl (by simp [hxa])
          · rcases interpPts_mem hint with ⟨j, hj, hlerp⟩
            exact Or.inr ⟨a, b, by simp, k, j, hj, hlerp⟩
        · rcases ih ks x hR with hmem | ⟨u, v, huv, hk⟩
          · exact Or.inl (List.mem_cons_of_mem a hmem)
          · exact Or.inr ⟨u, v, by simpa using Or.inr huv, hk⟩

/-- Inversion of a successful `resegment` call: the result's points come
from the insertion loop under the computed apportionment, and the DEM and
`locked` flag are carried over. -/
theorem resegment_some_inv (p : xyzPath) (target : ℕ) (q : xyzPath)
    (h : resegment p target = some q) :
    q.points = buildPoints p.points (resegmentAdds p target)
    ∧ q.dem = p.dem ∧ q.locked = p.locked := by
  unfold resegment at h
  split_ifs at h
  injection h with h
  rw [← h]
  exact ⟨rfl, rfl, rfl⟩

/-- C4: a successful `resegment` preserves every original point exactly and
in order (sublist), keeps the endpoints and the `locked` flag, and every
point of the output is an original point or an evenly-`t`-spaced linear
interpolation of two consecutive original points of its segment. -/
theorem C4_resegment_preserves (p : xyzPath) (target : ℕ) (q : xyzPath)
    (_h1 : p.points.length < target) (h2 : resegment p target = some q) :
    List.Sublist p.points q.points
    ∧ q.points.head? = p.points.head?
    ∧ q.points.getLast? = p.points.getLast?
    ∧ q.locked = p.locked
    ∧ ∀ x ∈ q.points, x ∈ p.points ∨ ∃ a b, (a, b) ∈ p.points.zip p.points.tail
        ∧ ∃ k j : ℕ, j < k ∧ x = lerp a b (((j : ℚ) + 1) / ((k : ℚ) + 1)) := by
  obtain ⟨hq, _hdem, hlock⟩ := resegment_some_inv p target q h2
  rw [hq]
  exact ⟨buildPoints_sublist p.points _, buildPoints_head? _ _,
    buildPoints_getLast? _ _, hlock, fun x hx => buildPoints_mem p.points _ x hx⟩

/-- A flat three-point path whose two segments have equal length 10. -/
def C3path : xyzPath := ⟨none, [⟨0, 0, 0⟩, ⟨10, 0, 0⟩, ⟨20, 0, 0⟩], false⟩

/-- `np.round` sends the tie `1.5` up to the even integer `2`. -/
theorem npRound_three_halves : npRound (3 / 2 : ℝ) = 2 := by
  have hf : ⌊(3 / 2 : ℝ)⌋ = 1 := by
    rw [Int.floor_eq_iff]
    constructor <;> norm_num
  simp only [npRound, hf]
  norm_num

/-- On `C3path` with target 6 the proportional shares are `[1.5, 1.5]`, both
rounded up to 2 by round-half-even, and the negative remainder `-1` is left
uncorrected, so each segment receives two inserted points. -/
theorem C3_adds : resegmentAdds C3path 6 = [2, 2] := by
  have h10 : dist3 ((10 : ℚ), 0, 0) = (10 : ℝ) := dist3_axis 10 (by norm_num)
  have hsd : segDeltas C3path.points = [((10 : ℚ), 0, 0), ((10 : ℚ), 0, 0)] := by
    norm_num [segDeltas, C3path]
  have hds : segDists C3path.points = [(10 : ℝ), (10 : ℝ)] := by
    rw [segDists, hsd, List.map_cons, List.map_cons, List.map_nil, h10]
  have hlen : C3path.points.length = 3 := rfl
  unfold resegmentAdds
  rw [hds, hlen]
  norm_num [npRound_three_halves, List.range_succ]
  decide

/-- The path actually returned by `resegment C3path 6`. -/
noncomputable def C3out : xyzPath :=
  ⟨none, buildPoints C3path.points (resegmentAdds C3path 6), false⟩

/-- `resegment C3path 6` succeeds and returns `C3out`. -/
theorem C3_reseg_eq : resegment C3path 6 = some C3out := by
  unfold resegment
  rw [if_neg (by norm_num [C3path]), if_neg ?hseg]
  case hseg =>
    simp [segDists, segDeltas, C3path]
  rfl

/-- C3: the reconciliation loop corrects only positive rounding remainders,
so on `C3path` (two equal segments) with target 6 both `1.5` shares round
to 2, the remainder is `−1`, and the returned path has 7 points instead of
the requested 6. -/
theorem C3_resegment_count_overshoot :
    resegment C3path 6 = some C3out ∧ C3out.points.length = 7 := by
  refine ⟨C3_reseg_eq, ?_⟩
  show (buildPoints C3path.points (resegmentAdds C3path 6)).length = 7
  rw [C3_adds]
  rfl

/-- C4 witness: the preservation properties at the concrete call
`resegment C3path 6`. -/
theorem C4_resegment_preserves_witness :
    List.Sublist C3path.points C3out.points
    ∧ C3out.points.head? = C3path.points.head?
    ∧ C3out.points.getLast? = C3path.points.getLast?
    ∧ C3out.locked = C3path.locked := by
  have h := C4_resegment_preserves C3path 6 C3out (by norm_num [C3path]) C3_reseg_eq
  exact ⟨h.1, h.2.1, h.2.2.1, h.2.2.2.1⟩

/-- Pointwise description of the propagated candidate list (general start
index). -/
theorem propagateFrom_get? (c : ℕ) (dx dy fr : ℚ) :
    ∀ (pts : List Pt) (s i : ℕ),
      (propagateFrom c dx dy fr s pts).get? i
        = (pts.get? i).map fun pt =>
            if s + i = c then ⟨pt.x + dx, pt.y + dy, pt.z⟩
            else if s + i = c - 1 ∨ s + i = c + 1 then
              ⟨pt.x + dx * fr, pt.y + dy * fr, pt.z⟩
            else pt := by
  intro pts
  induction pts with
  | nil => intro s i; simp [propagateFrom]
  | cons pt rest ih =>
    intro s i
    cases i with
    | zero => simp [propagateFrom]
    | succ n =>
      show (propagateFrom c dx dy fr (s + 1) rest).get? n = _
      rw [ih (s + 1) n, show s + 1 + n = s + (n + 1) from by omega]
      rfl

/-- Pointwise description of the propagated candidate list. -/
theorem propagate_get? (pts : List Pt) (c : ℕ) (dx dy fr : ℚ) (i : ℕ) :
    (propagate pts c dx dy fr).get? i
      = (pts.get? i).map fun pt =>
          if i = c then ⟨pt.x + dx, pt.y + dy, pt.z⟩
          else if i = c - 1 ∨ i = c + 1 then ⟨pt.x + dx * fr, pt.y + dy * fr, pt.z⟩
          else pt := by
  rw [propagate, propagateFrom_get?]
  simp

/-- `demResample` never moves a point in the plane. -/
theorem demResample_x (dem : Dem) (pt : Pt) : (demResample dem pt).x = pt.x := by
  unfold demResample; split <;> rfl

/-- `demResample` never moves a point in the plane. -/
theorem demResample_y (dem : Dem) (pt : Pt) : (demResample dem pt).y = pt.y := by
  unfold demResample; split <;> rfl

/-- The optional `update_z_values` pass keeps indices and planar
coordinates. -/
theorem demUpdate_xy (demOpt : Option Dem) (pts : List Pt) (i : ℕ) (pt : Pt)
    (h : pts.get? i = some pt) :
    ∃ pt', (demUpdate demOpt pts).get? i = some pt' ∧ pt'.x = pt.x ∧ pt'.y = pt.y := by
  cases demOpt with
  | none => exact ⟨pt, h, rfl, rfl⟩
  | some dem =>
    refine ⟨demResample dem pt, ?_, demResample_x dem pt, demResample_y dem pt⟩
    show (pts.map (demResample dem)).get? i = _
    rw [List.get?_map, h, Option.map_some']

/-- Reduction of `perturb` in the active-plan case: the early return with
the propagated candidate, the recorded move, one baseline cost evaluation
(when a cost function is configured) and no offset draws. -/
theorem perturb_active_plan_eq (m : SinglePointMover) (p : xyzPath)
    (cf : Option (xyzPath → ℝ)) (stop : ℕ → Bool) (idx : ℕ) (offs : ℕ → ℚ × ℚ)
    (pl : Propagation) (hpl : m.propagation = some pl)
    (hsteps : 0 < pl.steps_remaining) (hlt : ¬ p.points.length < 3) :
    perturb m p cf stop idx offs
      = ⟨⟨p.dem, demUpdate p.dem
            (propagate p.points pl.center pl.dx pl.dy pl.neighbor_frac), false⟩,
         { m with last_move := some (pl.center, pl.dx, pl.dy) },
         (match cf with | some _ => 1 | none => 0), 0⟩ := by
  simp only [perturb, hpl, hlt, if_false, hsteps, if_true]

/-- C7 amended: with an active propagation plan (steps remaining) on a path
of at least 3 points, `perturb` returns the propagated candidate at once —
center displaced by the plan's `(dx, dy)`, immediate neighbors by
`neighbor_frac · (dx, dy)`, all other planar positions unchanged — with no
random offset sampling and recording the move; however the cost function
(when configured) is still evaluated exactly once, on the input path, for
the baseline computed before the plan is consulted. -/
theorem C7_propagation_candidate (m : SinglePointMover) (p : xyzPath)
    (cf : Option (xyzPath → ℝ)) (stop : ℕ → Bool) (idx : ℕ) (offs : ℕ → ℚ × ℚ)
    (pl : Propagation) (hpl : m.propagation = some pl)
    (hsteps : 0 < pl.steps_remaining) (hn : 3 ≤ p.points.length) :
    (perturb m p cf stop idx offs).path.points
        = demUpdate p.dem (propagate p.points pl.center pl.dx pl.dy pl.neighbor_frac)
    ∧ (perturb m p cf stop idx offs).offsetDraws = 0
    ∧ (perturb m p cf stop idx offs).costEvals = (if cf.isSome then 1 else 0)
    ∧ (perturb m p cf stop idx offs).mover
        = { m with last_move := some (pl.center, pl.dx, pl.dy) }
    ∧ ∀ i pt, p.points.get? i = some pt →
        ∃ pt', (perturb m p cf stop idx offs).path.points.get? i = some pt'
          ∧ pt'.x = pt.x + (if i = pl.center then pl.dx
              else if i = pl.center - 1 ∨ i = pl.center + 1 then
                pl.dx * pl.neighbor_frac else 0)
          ∧ pt'.y = pt.y + (if i = pl.center then pl.dy
              else if i = pl.center - 1 ∨ i = pl.center + 1 then
                pl.dy * pl.neighbor_frac else 0) := by
  have hlt : ¬(p.points.length < 3) := by omega
  have hred := perturb_active_plan_eq m p cf stop idx offs pl hpl hsteps hlt
  refine ⟨by rw [hred], by rw [hred], ?_, by rw [hred], ?_⟩
  · rw [hred]
    cases cf <;> rfl
  · intro i pt hi
    have hp := propagate_get? p.points pl.center pl.dx pl.dy pl.neighbor_frac i
    rw [hi, Option.map_some'] at hp
    obtain ⟨pt', hpt', hx, hy⟩ := demUpdate_xy p.dem _ i _ hp
    refine ⟨pt', by rw [hred]; exact hpt', ?_, ?_⟩
    · rw [hx]; split_ifs <;> simp
    · rw [hy]; split_ifs <;> simp

/-- The mover state and path used in the C7 scenario: an active plan with
one remaining step on a three-point path. -/
def C7mover : SinglePointMover := ⟨10, 16, 6, some ⟨1, 1, 0, 1 / 2, 1⟩, none⟩

/-- Three-point path for the C7 scenario. -/
def C7path : xyzPath := ⟨none, [⟨0, 0, 0⟩, ⟨1, 0, 0⟩, ⟨2, 0, 0⟩], false⟩

/-- C7 counterexample: perturbing under an active propagation plan does
evaluate the cost function — once, for the baseline of the input path —
contrary to the claim that the candidate is returned without evaluating the
cost function at all. -/
theorem C7_counterexample :
    C7mover.propagation = some ⟨1, 1, 0, 1 / 2, 1⟩
    ∧ 3 ≤ C7path.points.length
    ∧ (perturb C7mover C7path (some fun _ => (0 : ℝ)) (fun _ => false) 1
        (fun _ => (0, 0))).costEvals = 1 := by
  refine ⟨rfl, by norm_num [C7path], ?_⟩
  simp only [perturb, C7mover, C7path]
  norm_num

/-- C7 witness: the amended statement at the concrete C7 scenario. -/
theorem C7_propagation_candidate_witness :
    (perturb C7mover C7path (some fun _ => (0 : ℝ)) (fun _ => false) 1
        (fun _ => (0, 0))).offsetDraws = 0
    ∧ (perturb C7mover C7path (some fun _ => (0 : ℝ)) (fun _ => false) 1
        (fun _ => (0, 0))).path.points
      = demUpdate C7path.dem (propagate C7path.points 1 1 0 (1 / 2)) := by
  have h := C7_propagation_candidate C7mover C7path (some fun _ => (0 : ℝ))
    (fun _ => false) 1 (fun _ => (0, 0)) ⟨1, 1, 0, 1 / 2, 1⟩ rfl
    (by norm_num) (by norm_num [C7path])
  exact ⟨h.2.1, h.1⟩

/-- `shiftAtFrom` preserves the number of points. -/
theorem shiftAtFrom_length (idx : ℕ) (dx dy : ℚ) :
    ∀ (s : ℕ) (pts : List Pt), (shiftAtFrom idx dx dy s pts).length = pts.length := by
  intro s pts
  induction pts generalizing s with
  | nil => rfl
  | cons pt rest ih => simp [shiftAtFrom, ih]

/-- `propagateFrom` preserves the number of points. -/
theorem propagateFrom_length (c : ℕ) (dx dy fr : ℚ) :
    ∀ (s : ℕ) (pts : List Pt), (propagateFrom c dx dy fr s pts).length = pts.length := by
  intro s pts
  induction pts generalizing s with
  | nil => rfl
  | cons pt rest ih => simp [propagateFrom, ih]

/-- The `z`-resampling pass preserves the number of points. -/
theorem demUpdate_length (demOpt : Option Dem) (pts : List Pt) :
    (demUpdate demOpt pts).length = pts.length := by
  cases demOpt <;> simp [demUpdate]

/-- `_make_candidate` preserves the number of points. -/
theorem make_candidate_length (dem : Option Dem) (pts : List Pt) (idx : ℕ) (dx dy : ℚ) :
    (make_candidate dem pts idx dx dy).points.length = pts.length := by
  show (demUpdate dem (shiftAtFrom idx dx dy 0 pts)).length = pts.length
  rw [demUpdate_length, shiftAtFrom_length]

/-- Collapse both sides of a loop outcome. -/
def sampOut (o : SampState ⊕ SampState) : SampState := Sum.elim id id o

/-- `evalCand` never changes the best path. -/
theorem evalCand_bestPath (cf : Option (xyzPath → ℝ)) (stop : ℕ → Bool)
    (cand : xyzPath) (st : SampState) :
    (match evalCand cf stop cand st with
     | .inl est => est.bestPath = st.bestPath
     | .inr (_, st') => st'.bestPath = st.bestPath) := by
  unfold evalCand
  cases cf with
  | none => exact rfl
  | some f =>
    by_cases hstop : stop st.polls = true
    · simp [hstop]
    · simp [hstop]

/-- The coarse sampling loop keeps the best path at the point count of the
original points it samples around. -/
theorem sampLoop_length (cf : Option (xyzPath → ℝ)) (stop : ℕ → Bool)
    (offs : ℕ → ℚ × ℚ) (dem : Option Dem) (pts0 : List Pt) (idx : ℕ) :
    ∀ (fuel : ℕ) (st : SampState), st.bestPath.points.length = pts0.length →
      (sampOut (sampLoop cf stop offs dem pts0 idx fuel st)).bestPath.points.length
        = pts0.length := by
  intro fuel
  induction fuel with
  | zero => intro st hst; exact hst
  | succ fuel ih =>
    intro st hst
    simp only [sampLoop]
    split_ifs with hstop
    · exact hst
    · split
      · next est heq =>
        have hb := evalCand_bestPath cf stop
          (make_candidate dem pts0 idx (offs st.draws).1 (offs st.draws).2)
          { st with polls := st.polls + 1, draws := st.draws + 1 }
        rw [heq] at hb
        show est.bestPath.points.length = pts0.length
        rw [hb]
        exact hst
      · next c st3 heq =>
        have hb := evalCand_bestPath cf stop
          (make_candidate dem pts0 idx (offs st.draws).1 (offs st.draws).2)
          { st with polls := st.polls + 1, draws := st.draws + 1 }
        rw [heq] at hb
        apply ih
        split_ifs
        · exact make_candidate_length dem pts0 idx _ _
        · show st3.bestPath.points.length = pts0.length
          rw [hb]
          exact hst

/-- Collapse both sides of a hill-climb round outcome. -/
def climbOut (o : SampState ⊕ (SampState × Bool)) : SampState := Sum.elim id Prod.fst o

/-- One hill-climb round keeps the best path's point count. -/
theorem climbInner_length (cf : Option (xyzPath → ℝ)) (stop : ℕ → Bool)
    (offs : ℕ → ℚ × ℚ) (dem : Option Dem) (pts0 : List Pt) (idx : ℕ) (n : ℕ) :
    ∀ (fuel : ℕ) (st : SampState) (improved : Bool),
      st.bestPath.points.length = n →
      (climbOut (climbInner cf stop offs dem pts0 idx fuel st improved)).bestPath.points.length
        = n := by
  intro fuel
  induction fuel with
  | zero => intro st improved hst; exact hst
  | succ fuel ih =>
    intro st improved hst
    simp only [climbInner]
    split_ifs with hstop
    · exact hst
    · split
      · next est heq =>
        have hb := evalCand_bestPath cf stop
          (make_candidate dem st.bestPath.points idx (offs st.draws).1 (offs st.draws).2)
          { st with polls := st.polls + 1, draws := st.draws + 1 }
        rw [heq] at hb
        show est.bestPath.points.length = n
        rw [hb]
        exact hst
      · next c st3 heq =>
        have hb := evalCand_bestPath cf stop
          (make_candidate dem st.bestPath.points idx (offs st.draws).1 (offs st.draws).2)
          { st with polls := st.polls + 1, draws := st.draws + 1 }
        rw [heq] at hb
        split_ifs
        · apply ih
          rw [make_candidate_length]
          exact hst
        · apply ih
          show st3.bestPath.points.length = n
          rw [hb]
          exact hst

/-- The outer hill-climb loop keeps the best path's point count. -/
theorem climbLoop_length (cf : Option (xyzPath → ℝ)) (stop : ℕ → Bool)
    (offs : ℕ → ℚ × ℚ) (dem : Option Dem) (pts0 : List Pt) (idx : ℕ)
    (innerCount : ℕ) (n : ℕ) :
    ∀ (fuel : ℕ) (st : SampState), st.bestPath.points.length = n →
      (sampOut (climbLoop cf stop offs dem pts0 idx innerCount fuel st)).bestPath.points.length
        = n := by
  intro fuel
  induction fuel with
  | zero => intro st hst; exact hst
  | succ fuel ih =>
    intro st hst
    simp only [climbLoop]
    split
    · next est heq =>
      have hi := climbInner_length cf stop offs dem pts0 idx n innerCount st false hst
      rw [heq] at hi
      exact hi
    · next st1 improved heq =>
      have hi := climbInner_length cf stop offs dem pts0 idx n innerCount st false hst
      rw [heq] at hi
      split_ifs
      · exact ih st1 hi
      · exact hi

/-- `perturb` returns a candidate with exactly as many points as its
input path, in every branch. -/
theorem perturb_points_length (m : SinglePointMover) (p : xyzPath)
    (cf : Option (xyzPath → ℝ)) (stop : ℕ → Bool) (idx : ℕ) (offs : ℕ → ℚ × ℚ) :
    (perturb m p cf stop idx offs).path.points.length = p.points.length := by
  by_cases hlt : p.points.length < 3
  · simp [perturb, hlt]
  · have hplan : ∀ pl, m.propagation = some pl → 0 < pl.steps_remaining →
        (perturb m p cf stop idx offs).path.points.length = p.points.length := by
      intro pl hpl hs
      rw [perturb_active_plan_eq m p cf stop idx offs pl hpl hs hlt]
      show (demUpdate p.dem (propagate p.points pl.center pl.dx pl.dy pl.neighbor_frac)).length
        = p.points.length
      rw [demUpdate_length]
      exact propagateFrom_length _ _ _ _ 0 p.points
    have hsamp : ∀ (st0 : SampState), st0.bestPath = p →
        (match sampLoop cf stop offs p.dem p.points idx m.samples st0 with
         | .inl est => est.bestPath
         | .inr st1 =>
            match climbLoop cf stop offs p.dem p.points idx
                (max 8 (m.samples / 2)) m.max_climb_steps st1 with
            | .inl est => est.bestPath
            | .inr st2 => st2.bestPath).points.length = p.points.length := by
      intro st0 h0
      have h1 := sampLoop_length cf stop offs p.dem p.points idx m.samples st0
        (by rw [h0])
      split
      · next est heq => rw [heq] at h1; exact h1
      · next st1 heq =>
        rw [heq] at h1
        have h2 := climbLoop_length cf stop offs p.dem p.points idx
          (max 8 (m.samples / 2)) p.points.length m.max_climb_steps st1 h1
        split
        · next est heq2 => rw [heq2] at h2; exact h2
        · next st2 heq2 => rw [heq2] at h2; exact h2
    cases hpl : m.propagation with
    | none =>
      have := hsamp ⟨p, true, (match cf with | some f => ((f p : ℝ) : WithTop ℝ) | none => ⊤),
        m.last_move, (match cf with | some _ => 1 | none => 0), 0, 0⟩ rfl
      simp only [perturb, hpl, hlt, if_false]
      split at this
      · exact this
      · split at this
        · exact this
        · exact this
    | some pl =>
      by_cases hs : 0 < pl.steps_remaining
      · exact hplan pl hpl hs
      · have := hsamp ⟨p, true, (match cf with | some f => ((f p : ℝ) : WithTop ℝ) | none => ⊤),
          m.last_move, (match cf with | some _ => 1 | none => 0), 0, 0⟩ rfl
        simp only [perturb, hpl, hlt, if_false, hs]
        split at this
        · exact this
        · split at this
          · exact this
          · exact this

/-- A successful `resegment` never decreases the point count (the original
points embed as a sublist). -/
theorem resegment_length_ge (p : xyzPath) (t : ℕ) (q : xyzPath)
    (h : resegment p t = some q) : p.points.length ≤ q.points.length := by
  obtain ⟨hq, _, _⟩ := resegment_some_inv p t q h
  rw [hq]
  exact (buildPoints_sublist p.points _).length_le

/-- The optimizer's re-densification step never decreases the point count. -/
theorem resegGuard_length (t : ℕ) (p : xyzPath) :
    p.points.length ≤ (resegGuard t p).points.length := by
  simp only [resegGuard]
  split_ifs
  · split
    · next q heq => exact resegment_length_ge p _ q heq
    · exact le_refl _
  · exact le_refl _
  · exact le_refl _

/-- The candidate considered by one `optimize` iteration: the perturbed path
after the re-densification guard. -/
noncomputable def iterCand (cf : xyzPath → ℝ) (target : ℕ) (o : IterOracle)
    (s : OptState) : xyzPath :=
  resegGuard target (perturb s.mover s.current (some cf) o.pstop o.idx o.offs).path

/-- C1: in the `optimize` loop (no mid-iteration cancellation), the
candidate is accepted exactly when `delta = candidateCost − currentCost ≤ 1`;
on acceptance the candidate becomes the current path (with its cost) and the
strategy is notified through `on_move_accepted`; on rejection the current
path is kept and the strategy's pending propagation plan is cleared. -/
theorem C1_acceptance_rule (cf : xyzPath → ℝ) (target : ℕ) (o : IterOracle)
    (s : OptState) (hmid : o.stopMid = false) :
    ((optIter cf target o s).accepted = true
      ↔ cf (iterCand cf target o s) - s.currentCost ≤ 1)
    ∧ (cf (iterCand cf target o s) - s.currentCost ≤ 1 →
        (optIter cf target o s).state.current = iterCand cf target o s
        ∧ (optIter cf target o s).state.currentCost = cf (iterCand cf target o s)
        ∧ (optIter cf target o s).state.mover
            = on_move_accepted
                (perturb s.mover s.current (some cf) o.pstop o.idx o.offs).mover
                s.current (iterCand cf target o s))
    ∧ (¬ cf (iterCand cf target o s) - s.currentCost ≤ 1 →
        (optIter cf target o s).state.current = s.current
        ∧ (optIter cf target o s).state.currentCost = s.currentCost
        ∧ (optIter cf target o s).state.mover.propagation = none) := by
  unfold optIter iterCand
  rw [hmid]
  by_cases hd : cf (resegGuard target
      (perturb s.mover s.current (some cf) o.pstop o.idx o.offs).path) - s.currentCost ≤ 1
  · rw [if_neg (by simp), if_pos hd]
    refine ⟨?_, fun _ => ?_, fun hcon => absurd hd hcon⟩
    · constructor
      · intro _; exact hd
      · intro _
        split_ifs <;> rfl
    · split_ifs <;> exact ⟨rfl, rfl, rfl⟩
  · rw [if_neg (by simp), if_neg hd]
    exact ⟨⟨fun hco => absurd hco (by simp), fun hco => absurd hco hd⟩,
      fun hco => absurd hco hd, fun _ => ⟨rfl, rfl, rfl⟩⟩

/-- A two-point path whose single segment is a 30-40-50 triangle leg. -/
def p2 : xyzPath := ⟨none, [⟨0, 0, 0⟩, ⟨30, 40, 0⟩], false⟩

/-- Oracle for the C1 scenario: no cancellation, arbitrary draws. -/
def o1 : IterOracle := ⟨false, false, fun _ => false, 1, fun _ => (0, 0)⟩

/-- Loop state for the C1 scenario: current cost 0 on `p2`. -/
noncomputable def s1 : OptState := ⟨p2, 0, p2, 0, mover0, 0⟩

/-- `perturb` returns a path with fewer than 3 points unchanged, before any
baseline evaluation. -/
theorem perturb_small (m : SinglePointMover) (p : xyzPath)
    (cf : Option (xyzPath → ℝ)) (stop : ℕ → Bool) (idx : ℕ) (offs : ℕ → ℚ × ℚ)
    (h : p.points.length < 3) : perturb m p cf stop idx offs = ⟨p, m, 0, 0⟩ := by
  simp [perturb, h]

/-- Norm of the 3-4-5 segment. -/
theorem dist345 : dist3 ((30 : ℚ), 40, 0) = (50 : ℝ) := by
  have h1 : dist3 ((30 : ℚ), 40, 0) = Real.sqrt ((50 : ℝ) ^ 2) := by
    unfold dist3; norm_num
  rw [h1, Real.sqrt_sq (by norm_num)]

/-- Total length of `p2`. -/
theorem total_p2 : get_total_distance p2 = 50 := by
  have hsd : segDeltas p2.points = [((30 : ℚ), 40, 0)] := by
    norm_num [segDeltas, p2]
  show (segDists p2.points).sum = 50
  rw [segDists, hsd, List.map_cons, List.map_nil, dist345]
  simp

/-- `np.round` fixes integers. -/
theorem npRound_nineteen : npRound (19 : ℝ) = 19 := by
  have hf : ⌊(19 : ℝ)⌋ = 19 := by
    rw [show (19 : ℝ) = ((19 : ℤ) : ℝ) by norm_num, Int.floor_intCast]
  simp only [npRound, hf]
  norm_num

/-- Apportionment for `resegment p2 21`: the whole 19-point budget goes to
the single segment. -/
theorem adds_p2 : resegmentAdds p2 21 = [19] := by
  have hsd : segDeltas p2.points = [((30 : ℚ), 40, 0)] := by
    norm_num [segDeltas, p2]
  have hds : segDists p2.points = [(50 : ℝ)] := by
    rw [segDists, hsd, List.map_cons, List.map_nil, dist345]
  have hlen : p2.points.length = 2 := rfl
  unfold resegmentAdds
  rw [hds, hlen]
  norm_num [npRound_nineteen, List.range_succ]
  decide

/-- `resegment p2 21` succeeds. -/
theorem reseg_p2 :
    resegment p2 21 = some ⟨none, buildPoints p2.points (resegmentAdds p2 21), false⟩ := by
  unfold resegment
  rw [if_neg (by norm_num [p2]), if_neg (by simp [segDists, segDeltas, p2])]
  rfl

/-- The re-densification guard on `p2` requests `max(2, ⌈50/2.5⌉ + 1) = 21`
points and resegments. -/
theorem guard_p2 :
    resegGuard 2 p2 = ⟨none, buildPoints p2.points (resegmentAdds p2 21), false⟩ := by
  simp only [resegGuard]
  rw [total_p2]
  have hquot : (50 : ℝ) / max ((50 : ℝ) * 0.05) 1e-12 = 20 := by
    rw [max_eq_left (by norm_num)]
    norm_num
  rw [hquot, show ((20 : ℝ) = ((20 : ℤ) : ℝ)) by norm_num, Int.ceil_intCast]
  rw [if_pos (by norm_num : (0 : ℝ) < 50)]
  have hmax : max ((2 : ℕ) : ℤ) ((20 : ℤ) + 1) = 21 := by norm_num
  rw [show ((p2.points.length : ℤ)) = ((2 : ℕ) : ℤ) from rfl, hmax]
  rw [if_pos (by norm_num : (((2 : ℕ) : ℤ)) < 21)]
  rw [show Int.toNat 21 = 21 from rfl, reseg_p2]

/-- Point count of the two-point insertion pattern. -/
theorem buildPoints_pair_length (a b : Pt) (k : ℕ) :
    (buildPoints [a, b] [k]).length = k + 2 := by
  show ((a :: interpPts a b k) ++ buildPoints [b] []).length = k + 2
  simp [interpPts, buildPoints]

/-- The candidate produced from `s1` has 21 points, for every cost
function. -/
theorem iterCand_len (cf : xyzPath → ℝ) : (iterCand cf 2 o1 s1).points.length = 21 := by
  unfold iterCand
  have hper : (perturb s1.mover s1.current (some cf) o1.pstop o1.idx o1.offs).path = p2 := by
    rw [show s1.mover = mover0 from rfl, show s1.current = p2 from rfl,
      perturb_small mover0 p2 (some cf) o1.pstop o1.idx o1.offs (by norm_num [p2])]
  rw [hper, guard_p2]
  show (buildPoints p2.points (resegmentAdds p2 21)).length = 21
  rw [adds_p2, show p2.points = [⟨0, 0, 0⟩, ⟨30, 40, 0⟩] from rfl,
    buildPoints_pair_length]

/-- Cost function giving the candidate cost `currentCost + 1.0` exactly. -/
noncomputable def cfAcc : xyzPath → ℝ := fun q => if q.points.length ≤ 2 then 0 else 1

/-- Cost function giving the candidate cost `currentCost + 1.0001`. -/
noncomputable def cfRej : xyzPath → ℝ := fun q => if q.points.length ≤ 2 then 0 else 1.0001

/-- C1 witness: from current cost 0, a candidate costing exactly 1.0 is
accepted (and becomes current), while a candidate costing 1.0001 is
rejected and the propagation plan is cleared. -/
theorem C1_acceptance_rule_witness :
    (optIter cfAcc 2 o1 s1).accepted = true
    ∧ (optIter cfAcc 2 o1 s1).state.current = iterCand cfAcc 2 o1 s1
    ∧ (optIter cfRej 2 o1 s1).accepted = false
    ∧ (optIter cfRej 2 o1 s1).state.mover.propagation = none := by
  have hAcc := C1_acceptance_rule cfAcc 2 o1 s1 rfl
  have hRej := C1_acceptance_rule cfRej 2 o1 s1 rfl
  have hcA : cfAcc (iterCand cfAcc 2 o1 s1) = 1 := by
    show (if (iterCand cfAcc 2 o1 s1).points.length ≤ 2 then (0 : ℝ) else 1) = 1
    rw [iterCand_len cfAcc]
    norm_num
  have hcR : cfRej (iterCand cfRej 2 o1 s1) = 1.0001 := by
    show (if (iterCand cfRej 2 o1 s1).points.length ≤ 2 then (0 : ℝ) else 1.0001) = 1.0001
    rw [iterCand_len cfRej]
    norm_num
  have hs1 : s1.currentCost = 0 := rfl
  have hdA : cfAcc (iterCand cfAcc 2 o1 s1) - s1.currentCost ≤ 1 := by
    rw [hcA, hs1]; norm_num
  have hdR : ¬ cfRej (iterCand cfRej 2 o1 s1) - s1.currentCost ≤ 1 := by
    rw [hcR, hs1]; norm_num
  refine ⟨hAcc.1.mpr hdA, (hAcc.2.1 hdA).1, ?_, ((hRej.2.2 hdR)).2.2⟩
  exact Bool.eq_false_iff.mpr (fun h => hdR (hRej.1.mp h))

/-- One loop iteration never worsens the best record and never drops the
point counts of the best and current paths below a lower bound. -/
theorem optIter_invariant (cf : xyzPath → ℝ) (target : ℕ) (o : IterOracle)
    (s : OptState) (c0 : ℝ) (n0 : ℕ)
    (hb : s.bestCost ≤ c0) (hbl : n0 ≤ s.best.points.length)
    (hcl : n0 ≤ s.current.points.length) :
    (optIter cf target o s).state.bestCost ≤ c0
    ∧ n0 ≤ (optIter cf target o s).state.best.points.length
    ∧ n0 ≤ (optIter cf target o s).state.current.points.length := by
  have hcand : n0 ≤ (resegGuard target
      (perturb s.mover s.current (some cf) o.pstop o.idx o.offs).path).points.length := by
    calc n0 ≤ s.current.points.length := hcl
    _ = (perturb s.mover s.current (some cf) o.pstop o.idx o.offs).path.points.length :=
        (perturb_points_length s.mover s.current (some cf) o.pstop o.idx o.offs).symm
    _ ≤ _ := resegGuard_length target _
  simp only [optIter]
  split_ifs with hmid hd hlt
  · exact ⟨hb, hbl, hcl⟩
  · exact ⟨le_trans (le_of_lt hlt) hb, hcand, hcand⟩
  · exact ⟨hb, hbl, hcand⟩
  · exact ⟨hb, hbl, hcl⟩

/-- The bounded `optimize` loop preserves the invariant. -/
theorem optLoop_invariant (cf : xyzPath → ℝ) (target : ℕ)
    (oracle : ℕ → IterOracle) (c0 : ℝ) (n0 : ℕ) :
    ∀ (fuel : ℕ) (s : OptState), s.bestCost ≤ c0 → n0 ≤ s.best.points.length →
      n0 ≤ s.current.points.length →
      (optLoop cf target oracle fuel s).bestCost ≤ c0
      ∧ n0 ≤ (optLoop cf target oracle fuel s).best.points.length := by
  intro fuel
  induction fuel with
  | zero => exact fun s h1 h2 _ => ⟨h1, h2⟩
  | succ fuel ih =>
    intro s h1 h2 h3
    simp only [optLoop]
    split_ifs with htop hex hcap
    · exact ⟨h1, h2⟩
    · obtain ⟨j1, j2, _⟩ := optIter_invariant cf target (oracle s.iter) s c0 n0 h1 h2 h3
      exact ⟨j1, j2⟩
    · obtain ⟨j1, j2, _⟩ := optIter_invariant cf target (oracle s.iter) s c0 n0 h1 h2 h3
      exact ⟨j1, j2⟩
    · obtain ⟨j1, j2, j3⟩ := optIter_invariant cf target (oracle s.iter) s c0 n0 h1 h2 h3
      exact ih _ j1 j2 j3

/-- C2: for every input path, total cost function and randomness/cancellation
oracle, `optimize` returns a best cost no worse than the input path's cost
(the best record starts there and is only ever replaced by strictly smaller
candidate costs) and a best path with at least as many points as the input
path. -/
theorem C2_optimize_never_worse (path : xyzPath) (cf : xyzPath → ℝ)
    (oracle : ℕ → IterOracle) :
    (optimize path cf oracle).2 ≤ cf path
    ∧ path.points.length ≤ (optimize path cf oracle).1.points.length := by
  unfold optimize
  exact optLoop_invariant cf path.points.length oracle (cf path) path.points.length
    2000 ⟨path, cf path, path, cf path, mover0, 0⟩ (le_refl _) (le_refl _) (le_refl _)
